import Mathlib

/-!
Verification of the epsilon-estimation program in `src/floats.cpp`.

The program works on IEEE-754 binary floating-point numbers (`float`,
`double`, x87 80-bit `long double`).  Every finite value of such a type
with `p` significand bits and minimum exponent `emin` is an integer
multiple of the smallest positive subnormal `2^(-w)` (w = 149 for
`float`, 1074 for `double`, 16445 for x87 `long double`).  We therefore
embed a floating-point value as its integer coefficient `k : ℤ`,
denoting the real number `k / 2^w`; this representation is unique, so
coefficient equality is exactly value equality, which is what the
program's `value + epsilon != value` test compares.  Each arithmetic
operation computes the exact rational result and rounds it to `p`
significand bits with round-to-nearest, ties-to-even, flushing gradually
through the subnormal range (scale exponent clamped at `-w`), which is
IEEE-754 default rounding.  Exponent overflow at the top of the range is
not modelled; the program's computations stay far below it.

The `while` loop of `accuracy_bound` is embedded with an explicit fuel
parameter returning `Option`: `none` means the loop did not finish
within `fuel` iterations, and termination claims are statements that
some fuel returns `some`.

All definitions are executable by kernel reduction (powers of two via a
fast fueled squaring function, exponents via a fueled bit-length, and
round-to-nearest-even via integer floor division), so concrete runs can
be settled by `decide`.
-/

/-- Fueled fast power of two by squaring: `pow2go f n = 2 ^ n` whenever
`n ≤ f`. -/
def pow2go : ℕ → ℕ → ℕ
  | 0, _ => 1
  | f + 1, n =>
    if n = 0 then 1
    else
      let h := pow2go f (n / 2)
      if n % 2 = 0 then h * h else 2 * (h * h)

/-- `npow2 n = 2 ^ n`, computed by kernel-friendly binary squaring. -/
def npow2 (n : ℕ) : ℕ :=
  pow2go n n

/-- `pw2 n = 2 ^ n` as an integer, computed by binary squaring; used in
statements about the wide formats, where `2 ^ n` written with `^` would
reduce too slowly in the kernel. -/
def pw2 (n : ℕ) : ℤ :=
  ((npow2 n : ℕ) : ℤ)

/-- Fueled binary length: for `n ≤ f`, `bitlen f n` is the number of
binary digits of `n` (so `2 ^ (bitlen f n - 1) ≤ n < 2 ^ bitlen f n` for
`n ≥ 1`, and `bitlen f 0 = 0`). -/
def bitlen : ℕ → ℕ → ℕ
  | 0, _ => 0
  | f + 1, n => if n ≤ 1 then n else bitlen f (n / 2) + 1

/-- Binary length again, but stripping 32 bits per recursive step so
the recursion depth stays small on the huge coefficients of the
extended format: for `n ≤ f`, `bitlenB f n = bitlen n n`. -/
def bitlenB : ℕ → ℕ → ℕ
  | 0, _ => 0
  | f + 1, n =>
    if n < 4294967296 then bitlen n n
    else bitlenB f (n / 4294967296) + 32

/-- Binary length once more, stripping 512 bits per recursive step, so
that both the recursion depth and the step count stay small on the huge
coefficients of the wide formats: for `n ≤ f`, `bitlenC f n = bitlen n n`. -/
def bitlenC : ℕ → ℕ → ℕ
  | 0, _ => 0
  | f + 1, n =>
    if n < 13407807929942597099574024998205846127479365820592393377723561443721764030073546976801874298166903427690031858186486050853753882811946569946433649006084096 then bitlenB n n
    else bitlenC f (n / 13407807929942597099574024998205846127479365820592393377723561443721764030073546976801874298166903427690031858186486050853753882811946569946433649006084096) + 512

/-- Bit-length difference of `a` and `b`: the first guess for
`⌊log₂ (a / b)⌋`. -/
def bldiff (a b : ℕ) : ℤ :=
  (bitlenC a a : ℤ) - (bitlenC b b : ℤ)

/-- `eExp a b` is `⌊log₂ (a / b)⌋` for natural numbers `a, b ≥ 1`:
first guess the difference of bit lengths, then correct it by one
comparison (the guess is exact or one too large). -/
def eExp (a b : ℕ) : ℤ :=
  if (b : ℤ) * (npow2 (bldiff a b).toNat : ℕ) ≤ (a : ℤ) * (npow2 (-(bldiff a b)).toNat : ℕ) then
    bldiff a b
  else bldiff a b - 1

/-- Round the rational `a / b` (with `b > 0`) to the nearest integer,
ties going to the even integer: the IEEE-754 default tie rule.  The
remainder `a - (a.fdiv b) * b` decides the direction. -/
def rneInt (a b : ℤ) : ℤ :=
  if 2 * (a - a.fdiv b * b) < b then a.fdiv b
  else if b < 2 * (a - a.fdiv b * b) then a.fdiv b + 1
  else if a.fdiv b % 2 = 0 then a.fdiv b else a.fdiv b + 1

/-- The scale exponent used when rounding the value `a / b` into the
format with `p` significand bits on the `2 ^ (-w)` grid:
`⌊log₂ |a / b|⌋ - (p - 1)`, clamped below at `-w` (gradual
underflow). -/
def scaleExp (p w : ℕ) (a : ℤ) (b : ℕ) : ℤ :=
  max (eExp a.natAbs b - ((p : ℤ) - 1)) (-(w : ℤ))

/-- The rounded significand of `a / b` at the scale exponent
`scaleExp p w a b`: the integer nearest to `|a / b| * 2 ^ (-s)`, ties
to even. -/
def mantRNE (p w : ℕ) (a : ℤ) (b : ℕ) : ℤ :=
  rneInt ((a.natAbs : ℤ) * (npow2 (-(scaleExp p w a b)).toNat : ℕ))
    ((b : ℤ) * (npow2 (scaleExp p w a b).toNat : ℕ))

/-- Round the exact rational value `a / b` (with `b > 0`) to the
floating-point format with `p` significand bits and smallest positive
value `2 ^ (-w)`, returning the coefficient of the result on the
`2 ^ (-w)` grid: the signed rounded significand re-scaled to the
grid.  This is IEEE-754 round-to-nearest, ties-to-even, with gradual
underflow and no upper exponent bound. -/
def roundQF (p w : ℕ) (a : ℤ) (b : ℕ) : ℤ :=
  if a = 0 then 0
  else
    (if a < 0 then -1 else 1) * mantRNE p w a b
      * (npow2 (scaleExp p w a b + w).toNat : ℕ)

/-- Floating-point addition on coefficients: the exact sum
`(k1 + k2) / 2 ^ w` rounded back to the format.  Embeds the C++
expression `value + epsilon` of type `T`. -/
def fadd (p w : ℕ) (k1 k2 : ℤ) : ℤ :=
  roundQF p w (k1 + k2) (npow2 w)

/-- Floating-point multiplication on coefficients: the exact product
`(k1 * k2) / 2 ^ (2 * w)` rounded back to the format.  Embeds the C++
expression `epsilon * divisor` (src/floats.cpp line 39). -/
def fmul (p w : ℕ) (k1 k2 : ℤ) : ℤ :=
  roundQF p w (k1 * k2) (npow2 (2 * w))

/-- Floating-point division on coefficients: the exact quotient
`k1 / k2` rounded back to the format.  Embeds the C++ statement
`epsilon /= divisor` (src/floats.cpp line 34). -/
def fdiv (p w : ℕ) (k1 k2 : ℤ) : ℤ :=
  if k2 = 0 then 0
  else roundQF p w (if k2 < 0 then -k1 else k1) k2.natAbs

/-- `k` is a value of the `(p, w)` format: rounding it to the format
leaves it unchanged.  Every C++ variable of the type satisfies this. -/
def isRepF (p w : ℕ) (k : ℤ) : Prop :=
  roundQF p w k (npow2 w) = k

instance (p w : ℕ) (k : ℤ) : Decidable (isRepF p w k) :=
  inferInstanceAs (Decidable (_ = _))

/-- The real value `k / 2 ^ w` denoted by the coefficient `k` of the
`(p, w)` format, as a rational number. -/
def val (w : ℕ) (k : ℤ) : ℚ :=
  (k : ℚ) / 2 ^ w

/-- Shallow embedding of `accuracy_bound` (src/floats.cpp lines 8-40):
while `value + epsilon != value`, divide `epsilon` by `divisor`; on
exit return `epsilon * divisor`.  `fuel` bounds the number of loop-test
evaluations; `none` means the loop was still running when fuel ran
out. -/
def accuracy_bound (p w : ℕ) : ℕ → ℤ → ℤ → ℤ → Option ℤ
  | 0, _, _, _ => none
  | fuel + 1, value, divisor, epsilon =>
    if fadd p w value epsilon ≠ value then
      accuracy_bound p w fuel value divisor (fdiv p w epsilon divisor)
    else
      some (fmul p w epsilon divisor)

/-- Shallow embedding of `accuracy_vector` (src/floats.cpp lines
42-83): run `accuracy_bound` once per divisor, in order, feeding each
result to the next call as its initial guess; collect the results. -/
def accuracy_vector (p w : ℕ) (fuel : ℕ) (value : ℤ) : List ℤ → ℤ → Option (List ℤ)
  | [], _ => some []
  | d :: ds, guess =>
    match accuracy_bound p w fuel value d guess with
    | none => none
    | some b =>
      match accuracy_vector p w fuel value ds b with
      | none => none
      | some rest => some (b :: rest)

/-- The loop of `accuracy_bound` finishes on these arguments: some
amount of fuel suffices. -/
def Terminates (p w : ℕ) (value divisor guess : ℤ) : Prop :=
  ∃ fuel, (accuracy_bound p w fuel value divisor guess).isSome

/-- The loop of `accuracy_bound` never finishes on these arguments: no
amount of fuel suffices. -/
def Diverges (p w : ℕ) (value divisor guess : ℤ) : Prop :=
  ∀ fuel, accuracy_bound p w fuel value divisor guess = none

/-- A C++ `double` literal `a / b`, as a coefficient of the
`(53, 1074)` format: the decimal literals of src/floats.cpp line 91 are
`double` constants. -/
def doubleLit (a : ℤ) (b : ℕ) : ℤ :=
  roundQF 53 1074 a b

/-- A `float` element of `single_divisors`: the `double` literal
`a / b` narrowed to the `(24, 149)` format, as in the initialisation of
`std::vector<float> single_divisors` (src/floats.cpp line 91). -/
def singleLit (a : ℤ) (b : ℕ) : ℤ :=
  roundQF 24 149 (doubleLit a b) (npow2 1074)

/-- Conversion of a `float` coefficient to the `double` format:
widening a value of the `(24, 149)` format into `(53, 1074)`
(src/floats.cpp line 92). -/
def widenD (k : ℤ) : ℤ :=
  roundQF 53 1074 k (npow2 149)

/-- Conversion of a `float` coefficient to the x87 `long double`
format: widening a value of the `(24, 149)` format into `(64, 16445)`
(src/floats.cpp line 93). -/
def widenE (k : ℤ) : ℤ :=
  roundQF 64 16445 k (npow2 149)

/-- The `float` divisor list `{2.0, 1.1, 1.01, 1.001, 1.0001, 1.00001}`
of src/floats.cpp line 91, as `(24, 149)` coefficients. -/
def single_divisors : List ℤ :=
  [singleLit 2 1, singleLit 11 10, singleLit 101 100,
   singleLit 1001 1000, singleLit 10001 10000, singleLit 100001 100000]

/-- The `double` divisor list of src/floats.cpp line 92, built by
widening each element of `single_divisors`. -/
def double_divisors : List ℤ :=
  single_divisors.map widenD

/-- The `long double` divisor list of src/floats.cpp line 93, built by
widening each element of `single_divisors`. -/
def extended_divisors : List ℤ :=
  single_divisors.map widenE

/-- `accuracy_vector<float>(1.0, single_divisors, 1.0)`
(src/floats.cpp line 97); `2 ^ 149` is the coefficient of the value
`1.0`, and fuel 200 is ample (the longest stage runs 24 iterations). -/
def single_vector : Option (List ℤ) :=
  accuracy_vector 24 149 200 (npow2 149) single_divisors (npow2 149)

/-- `accuracy_vector<double>(1.0, double_divisors, 1.0)`
(src/floats.cpp line 98); the longest stage runs 53 iterations. -/
def double_vector : Option (List ℤ) :=
  accuracy_vector 53 1074 200 (npow2 1074) double_divisors (npow2 1074)

/-- `accuracy_vector<long double>(1.0, extended_divisors, 1.0)`
(src/floats.cpp line 99); the longest stage runs 64 iterations. -/
def extended_vector : Option (List ℤ) :=
  accuracy_vector 64 16445 200 (npow2 16445) extended_divisors (npow2 16445)

/-- The last element of a refinement sequence: the bound the driver
prints (src/floats.cpp lines 103-113 index `size() - 1`). -/
def last_bound (o : Option (List ℤ)) : Option ℤ :=
  o.bind List.getLast?

/-- The console report of src/floats.cpp lines 103-113: for each
precision, the pair of the empirical bound (last vector element) and
the theoretical value `2 ^ (-k)` (k = 24, 53, 64), each given as a
coefficient of that precision's grid (`2 ^ (-24) = 2 ^ 125 / 2 ^ 149`,
`2 ^ (-53) = 2 ^ 1021 / 2 ^ 1074`, `2 ^ (-64) = 2 ^ 16381 / 2 ^ 16445`). -/
def main_report : Option (List (ℤ × ℤ)) :=
  match last_bound single_vector, last_bound double_vector, last_bound extended_vector with
  | some s, some d, some e => some [(s, pw2 125), (d, pw2 1021), (e, pw2 16381)]
  | _, _, _ => none

/-
Concrete evaluation layer: the divisor lists and each loop run of the
driver, settled stage by stage by kernel computation.  `pw2 k` is the
integer `2 ^ k`; it is used instead of `2 ^ k` in the large statements
so that kernel reduction is by binary squaring.
-/

set_option maxRecDepth 3000000

theorem single_divisors_eq :
    single_divisors = [2^150, 9227469 * 2^126, 4236247 * 2^127,
      8396997 * 2^126, 8389447 * 2^126, 2097173 * 2^128] := by
  decide

theorem double_divisors_eq :
    double_divisors = [pw2 1075, 9227469 * pw2 1051, 4236247 * pw2 1052,
      8396997 * pw2 1051, 8389447 * pw2 1051, 2097173 * pw2 1053] := by
  decide

theorem extended_divisors_eq :
    extended_divisors = [pw2 16446, 9227469 * pw2 16422, 4236247 * pw2 16423,
      8396997 * pw2 16422, 8389447 * pw2 16422, 2097173 * pw2 16424] := by
  decide

theorem single_stage1 :
    accuracy_bound 24 149 200 (npow2 149) (2^150) (npow2 149) = some (2^126) := by
  decide

theorem single_stage2 :
    accuracy_bound 24 149 200 (npow2 149) (9227469 * 2^126) (2^126)
      = some (8609363 * 2^102) := by
  decide

theorem single_stage3 :
    accuracy_bound 24 149 200 (npow2 149) (4236247 * 2^127) (8609363 * 2^102)
      = some (8439725 * 2^102) := by
  decide

theorem single_stage4 :
    accuracy_bound 24 149 200 (npow2 149) (8396997 * 2^126) (8439725 * 2^102)
      = some (8389261 * 2^102) := by
  decide

theorem single_stage5 :
    accuracy_bound 24 149 200 (npow2 149) (8389447 * 2^126) (8389261 * 2^102)
      = some (8389261 * 2^102) := by
  decide

theorem single_stage6 :
    accuracy_bound 24 149 200 (npow2 149) (2097173 * 2^128) (8389261 * 2^102)
      = some (8388673 * 2^102) := by
  decide

theorem single_vector_eq :
    single_vector = some [2^126, 8609363 * 2^102, 8439725 * 2^102,
      8389261 * 2^102, 8389261 * 2^102, 8388673 * 2^102] := by
  rw [single_vector, single_divisors_eq]
  simp only [accuracy_vector, single_stage1, single_stage2, single_stage3,
    single_stage4, single_stage5, single_stage6]

theorem double_stage1 :
    accuracy_bound 53 1074 200 (npow2 1074) (pw2 1075) (npow2 1074)
      = some (pw2 1022) := by
  decide

theorem double_stage2 :
    accuracy_bound 53 1074 200 (npow2 1074) (9227469 * pw2 1051) (pw2 1022)
      = some (2311058359410047 * pw2 970) := by
  decide

theorem double_stage3 :
    accuracy_bound 53 1074 200 (npow2 1074) (4236247 * pw2 1052) (2311058359410047 * pw2 970)
      = some (4531042844924131 * pw2 969) := by
  decide

theorem double_stage4 :
    accuracy_bound 53 1074 200 (npow2 1074) (8396997 * pw2 1051) (4531042844924131 * pw2 969)
      = some (2251975112514213 * pw2 970) := by
  decide

theorem double_stage5 :
    accuracy_bound 53 1074 200 (npow2 1074) (8389447 * pw2 1051) (2251975112514213 * pw2 970)
      = some (2251975112514213 * pw2 970) := by
  decide

theorem double_stage6 :
    accuracy_bound 53 1074 200 (npow2 1074) (2097173 * pw2 1053) (2251975112514213 * pw2 970)
      = some (4503634533001963 * pw2 969) := by
  decide

theorem double_vector_eq :
    double_vector = some [pw2 1022, 2311058359410047 * pw2 970,
      4531042844924131 * pw2 969, 2251975112514213 * pw2 970,
      2251975112514213 * pw2 970, 4503634533001963 * pw2 969] := by
  rw [double_vector, double_divisors_eq]
  simp only [accuracy_vector, double_stage1, double_stage2, double_stage3,
    double_stage4, double_stage5, double_stage6]

theorem extended_stage1 :
    accuracy_bound 64 16445 200 (npow2 16445) (pw2 16446) (npow2 16445)
      = some (pw2 16382) := by
  decide

theorem extended_stage2 :
    accuracy_bound 64 16445 200 (npow2 16445) (9227469 * pw2 16422) (pw2 16382)
      = some (4733047520071775313 * pw2 16319) := by
  decide

theorem extended_stage3 :
    accuracy_bound 64 16445 200 (npow2 16445) (4236247 * pw2 16423)
      (4733047520071775313 * pw2 16319)
      = some (9279575746404616727 * pw2 16318) := by
  decide

theorem extended_stage4 :
    accuracy_bound 64 16445 200 (npow2 16445) (8396997 * pw2 16422)
      (9279575746404616727 * pw2 16318)
      = some (288252814401819165 * pw2 16323) := by
  decide

theorem extended_stage5 :
    accuracy_bound 64 16445 200 (npow2 16445) (8389447 * pw2 16422)
      (288252814401819165 * pw2 16323)
      = some (288252814401819165 * pw2 16323) := by
  decide

theorem extended_stage6 :
    accuracy_bound 64 16445 200 (npow2 16445) (2097173 * pw2 16424)
      (288252814401819165 * pw2 16323)
      = some (9223443523588014633 * pw2 16318) := by
  decide

theorem extended_vector_eq :
    extended_vector = some [pw2 16382, 4733047520071775313 * pw2 16319,
      9279575746404616727 * pw2 16318, 288252814401819165 * pw2 16323,
      288252814401819165 * pw2 16323, 9223443523588014633 * pw2 16318] := by
  rw [extended_vector, extended_divisors_eq]
  simp only [accuracy_vector, extended_stage1, extended_stage2, extended_stage3,
    extended_stage4, extended_stage5, extended_stage6]

theorem pow2go_eq : ∀ f n, n ≤ f → pow2go f n = 2 ^ n := by
  intro f
  induction f with
  | zero => intro n hn; interval_cases n; rfl
  | succ f ih =>
    intro n hn
    rw [pow2go]
    rcases Nat.eq_zero_or_pos n with h0 | h1
    · simp [h0]
    have hrec : n / 2 ≤ f := by omega
    rw [if_neg (by omega), ih _ hrec]
    rcases Nat.even_or_odd n with ⟨m, hm⟩ | ⟨m, hm⟩
    · rw [if_pos (by omega)]
      rw [← pow_add]
      congr 1
      omega
    · rw [if_neg (by omega)]
      rw [← pow_add, ← pow_succ']
      congr 1
      omega

theorem npow2_eq (n : ℕ) : npow2 n = 2 ^ n :=
  pow2go_eq n n le_rfl

theorem pw2_eq (n : ℕ) : pw2 n = (2 : ℤ) ^ n := by
  rw [pw2, npow2_eq]; push_cast; ring

theorem bitlen_spec : ∀ f n, n ≤ f → 1 ≤ n →
    1 ≤ bitlen f n ∧ 2 ^ (bitlen f n - 1) ≤ n ∧ n < 2 ^ bitlen f n := by
  intro f
  induction f with
  | zero => intro n hn h1; omega
  | succ f ih =>
    intro n hn h1
    rw [bitlen]
    by_cases hsmall : n ≤ 1
    · have : n = 1 := by omega
      subst this
      simp
    · rw [if_neg hsmall]
      have h2 : 2 ≤ n := by omega
      obtain ⟨hb1, hlow, hhigh⟩ := ih (n / 2) (by omega) (by omega)
      refine ⟨by omega, ?_, ?_⟩
      · calc 2 ^ (bitlen f (n / 2) + 1 - 1) = 2 * 2 ^ (bitlen f (n / 2) - 1) := by
              rw [← pow_succ']
              congr 1
              omega
          _ ≤ 2 * (n / 2) := by omega
          _ ≤ n := by omega
      · calc n < 2 * (n / 2) + 2 := by omega
          _ ≤ 2 * 2 ^ bitlen f (n / 2) := by omega
          _ = 2 ^ (bitlen f (n / 2) + 1) := by rw [pow_succ']

theorem bitlenB_spec : ∀ f n, n ≤ f → 1 ≤ n →
    1 ≤ bitlenB f n ∧ 2 ^ (bitlenB f n - 1) ≤ n ∧ n < 2 ^ bitlenB f n := by
  intro f
  induction f with
  | zero => intro n hn h1; omega
  | succ f ih =>
    intro n hn h1
    rw [bitlenB]
    by_cases hsmall : n < 4294967296
    · rw [if_pos hsmall]
      exact bitlen_spec n n le_rfl h1
    · rw [if_neg hsmall]
      have hq : 1 ≤ n / 4294967296 := by omega
      obtain ⟨hb1, hlow, hhigh⟩ := ih (n / 4294967296) (by omega) hq
      refine ⟨by omega, ?_, ?_⟩
      · calc 2 ^ (bitlenB f (n / 4294967296) + 32 - 1)
              = 2 ^ (bitlenB f (n / 4294967296) - 1) * 2 ^ 32 := by
              rw [← pow_add]
              congr 1
              omega
          _ ≤ (n / 4294967296) * 2 ^ 32 := by
              exact Nat.mul_le_mul_right _ hlow
          _ ≤ n := by omega
      · calc n < (n / 4294967296 + 1) * 4294967296 := by omega
          _ ≤ 2 ^ bitlenB f (n / 4294967296) * 4294967296 := by
              exact Nat.mul_le_mul_right _ (by omega)
          _ = 2 ^ (bitlenB f (n / 4294967296) + 32) := by
              rw [pow_add]
              norm_num

theorem bitlenC_spec : ∀ f n, n ≤ f → 1 ≤ n →
    1 ≤ bitlenC f n ∧ 2 ^ (bitlenC f n - 1) ≤ n ∧ n < 2 ^ bitlenC f n := by
  intro f
  induction f with
  | zero => intro n hn h1; omega
  | succ f ih =>
    intro n hn h1
    rw [bitlenC]
    by_cases hsmall : n < 13407807929942597099574024998205846127479365820592393377723561443721764030073546976801874298166903427690031858186486050853753882811946569946433649006084096
    · rw [if_pos hsmall]
      exact bitlenB_spec n n le_rfl h1
    · rw [if_neg hsmall]
      have hq : 1 ≤ n / 13407807929942597099574024998205846127479365820592393377723561443721764030073546976801874298166903427690031858186486050853753882811946569946433649006084096 := by omega
      obtain ⟨hb1, hlow, hhigh⟩ := ih (n / 13407807929942597099574024998205846127479365820592393377723561443721764030073546976801874298166903427690031858186486050853753882811946569946433649006084096) (by omega) hq
      refine ⟨by omega, ?_, ?_⟩
      · calc 2 ^ (bitlenC f (n / 13407807929942597099574024998205846127479365820592393377723561443721764030073546976801874298166903427690031858186486050853753882811946569946433649006084096) + 512 - 1)
              = 2 ^ (bitlenC f (n / 13407807929942597099574024998205846127479365820592393377723561443721764030073546976801874298166903427690031858186486050853753882811946569946433649006084096) - 1) * 2 ^ 512 := by
              rw [← pow_add]
              congr 1
              omega
          _ ≤ (n / 13407807929942597099574024998205846127479365820592393377723561443721764030073546976801874298166903427690031858186486050853753882811946569946433649006084096) * 2 ^ 512 := by
              exact Nat.mul_le_mul_right _ hlow
          _ ≤ n := by omega
      · calc n < (n / 13407807929942597099574024998205846127479365820592393377723561443721764030073546976801874298166903427690031858186486050853753882811946569946433649006084096 + 1) * 13407807929942597099574024998205846127479365820592393377723561443721764030073546976801874298166903427690031858186486050853753882811946569946433649006084096 := by omega
          _ ≤ 2 ^ bitlenC f (n / 13407807929942597099574024998205846127479365820592393377723561443721764030073546976801874298166903427690031858186486050853753882811946569946433649006084096) * 13407807929942597099574024998205846127479365820592393377723561443721764030073546976801874298166903427690031858186486050853753882811946569946433649006084096 := by
              exact Nat.mul_le_mul_right _ (by omega)
          _ = 2 ^ (bitlenC f (n / 13407807929942597099574024998205846127479365820592393377723561443721764030073546976801874298166903427690031858186486050853753882811946569946433649006084096) + 512) := by
              rw [pow_add]
              norm_num

theorem rneInt_le (a b : ℤ) (hb : 0 < b) : 2 * b * rneInt a b ≤ 2 * a + b := by
  have hqr := Int.fdiv_add_fmod a b
  have hr0 := Int.fmod_nonneg' a hb
  have hrb := Int.fmod_lt_of_pos a hb
  have hr' : a - a.fdiv b * b = a.fmod b := by linarith [mul_comm b (a.fdiv b)]
  rw [rneInt, hr']
  split_ifs <;> linarith [mul_comm b (a.fdiv b)]

theorem le_rneInt (a b : ℤ) (hb : 0 < b) : 2 * a - b ≤ 2 * b * rneInt a b := by
  have hqr := Int.fdiv_add_fmod a b
  have hr0 := Int.fmod_nonneg' a hb
  have hrb := Int.fmod_lt_of_pos a hb
  have hr' : a - a.fdiv b * b = a.fmod b := by linarith [mul_comm b (a.fdiv b)]
  rw [rneInt, hr']
  split_ifs <;> linarith [mul_comm b (a.fdiv b)]

theorem rneInt_nonneg (a b : ℤ) (hb : 0 < b) (ha : 0 ≤ a) : 0 ≤ rneInt a b := by
  have hq := Int.fdiv_nonneg ha hb.le
  rw [rneInt]
  split_ifs <;> omega

theorem rneInt_eq_zero (a b : ℤ) (hb : 0 < b) (ha : 0 ≤ a) (h : 2 * a ≤ b) :
    rneInt a b = 0 := by
  have hqr := Int.fdiv_add_fmod a b
  have hr0 := Int.fmod_nonneg' a hb
  have hq0 : a.fdiv b = 0 := by
    have hub : a < b := by omega
    have hq := Int.fdiv_nonneg ha hb.le
    rcases eq_or_lt_of_le hq with h0 | h1
    · omega
    · exfalso
      have : b * 1 ≤ b * a.fdiv b := by
        apply mul_le_mul_of_nonneg_left _ hb.le
        omega
      nlinarith
  rw [rneInt, hq0]
  split_ifs with h1 h2 h3 <;> omega

theorem npow2_pos (n : ℕ) : 0 < npow2 n := by
  rw [npow2_eq]
  positivity

theorem q_zpow_mul_neg (L : ℤ) :
    (2:ℚ) ^ L * (2:ℚ) ^ ((-L).toNat : ℕ) = (2:ℚ) ^ (L.toNat : ℕ) := by
  rcases le_or_lt 0 L with h | h
  · have h1 : (-L).toNat = 0 := by omega
    have h2 : (L.toNat : ℤ) = L := Int.toNat_of_nonneg h
    rw [h1, pow_zero, mul_one, ← zpow_natCast (2:ℚ) L.toNat, h2]
  · have h1 : L.toNat = 0 := by omega
    have h2 : ((-L).toNat : ℤ) = -L := Int.toNat_of_nonneg (by omega)
    rw [h1, pow_zero, ← zpow_natCast (2:ℚ) (-L).toNat, h2,
      ← zpow_add₀ (by norm_num : (2:ℚ) ≠ 0)]
    simp

theorem eExp_le (a b : ℕ) (ha : 1 ≤ a) (hb : 1 ≤ b) :
    (2:ℚ) ^ eExp a b ≤ (a : ℚ) / (b : ℚ) := by
  have hb0 : (0:ℚ) < (b:ℚ) := by exact_mod_cast hb
  obtain ⟨hsa1, hsalo, hsahi⟩ := bitlenC_spec a a le_rfl ha
  obtain ⟨hsb1, hsblo, hsbhi⟩ := bitlenC_spec b b le_rfl hb
  rw [eExp]
  split_ifs with hcond
  · rw [le_div_iff hb0]
    rw [npow2_eq, npow2_eq] at hcond
    have hcQ : (b:ℚ) * (2:ℚ) ^ ((bldiff a b).toNat : ℕ)
        ≤ (a:ℚ) * (2:ℚ) ^ ((-(bldiff a b)).toNat : ℕ) := by
      exact_mod_cast hcond
    have hpos : (0:ℚ) < (2:ℚ) ^ ((-(bldiff a b)).toNat : ℕ) := by positivity
    apply le_of_mul_le_mul_right _ hpos
    calc (2:ℚ) ^ bldiff a b * (b:ℚ) * (2:ℚ) ^ ((-(bldiff a b)).toNat : ℕ)
        = (b:ℚ) * ((2:ℚ) ^ bldiff a b * (2:ℚ) ^ ((-(bldiff a b)).toNat : ℕ)) := by ring
      _ = (b:ℚ) * (2:ℚ) ^ ((bldiff a b).toNat : ℕ) := by rw [q_zpow_mul_neg]
      _ ≤ (a:ℚ) * (2:ℚ) ^ ((-(bldiff a b)).toNat : ℕ) := hcQ
  · rw [le_div_iff hb0]
    have haQ : (2:ℚ) ^ ((bitlenC a a : ℤ) - 1) ≤ (a:ℚ) := by
      have hcast : (bitlenC a a : ℤ) - 1 = ((bitlenC a a - 1 : ℕ) : ℤ) := by omega
      rw [hcast, zpow_natCast]
      exact_mod_cast hsalo
    have hbQ : (b:ℚ) < (2:ℚ) ^ ((bitlenC b b : ℤ)) := by
      rw [zpow_natCast]
      exact_mod_cast hsbhi
    have hstep : (2:ℚ) ^ (bldiff a b - 1) * (b:ℚ)
        < (2:ℚ) ^ ((bitlenC a a : ℤ) - 1) := by
      calc (2:ℚ) ^ (bldiff a b - 1) * (b:ℚ)
          < (2:ℚ) ^ (bldiff a b - 1) * (2:ℚ) ^ ((bitlenC b b : ℤ)) := by
            exact mul_lt_mul_of_pos_left hbQ (by positivity)
        _ = (2:ℚ) ^ ((bitlenC a a : ℤ) - 1) := by
            rw [← zpow_add₀ (by norm_num : (2:ℚ) ≠ 0)]
            congr 1
            rw [bldiff]
            ring
    exact le_of_lt (lt_of_lt_of_le hstep haQ)

theorem roundQF_nonneg (p w : ℕ) (a : ℤ) (b : ℕ) (hb : 1 ≤ b) (ha : 0 ≤ a) :
    0 ≤ roundQF p w a b := by
  rw [roundQF]
  split_ifs with h0 hneg
  · exact le_refl 0
  · omega
  · have hn : 0 ≤ mantRNE p w a b := by
      apply rneInt_nonneg
      · have := npow2_pos (scaleExp p w a b).toNat
        have hbz : (0:ℤ) < (b:ℤ) := by exact_mod_cast hb
        positivity
      · positivity
    positivity

theorem roundQF_neg (p w : ℕ) (a : ℤ) (b : ℕ) :
    roundQF p w (-a) b = - roundQF p w a b := by
  by_cases h0 : a = 0
  · subst h0
    simp [roundQF]
  · have hm : mantRNE p w (-a) b = mantRNE p w a b := by
      rw [mantRNE, mantRNE, scaleExp, scaleExp, Int.natAbs_neg]
    have hs : scaleExp p w (-a) b = scaleExp p w a b := by
      rw [scaleExp, scaleExp, Int.natAbs_neg]
    rw [roundQF, roundQF, if_neg (by omega : ¬ -a = 0), if_neg h0, hm, hs]
    rcases lt_trichotomy a 0 with h | h | h
    · rw [if_neg (by omega : ¬ -a < 0), if_pos h]
      ring
    · omega
    · rw [if_pos (by omega : -a < 0), if_neg (by omega : ¬ a < 0)]
      ring

theorem roundQF_lt (p w : ℕ) (a : ℤ) (b : ℕ) (K : ℤ) (hp : 1 ≤ p) (hb : 1 ≤ b)
    (ha : 0 ≤ a) (hK : 1 ≤ K)
    (hx : 2 * (a:ℚ) * (2:ℚ) ^ (w : ℤ) ≤ (K:ℚ) * (b:ℚ)) :
    roundQF p w a b < K := by
  have hb0 : (0:ℚ) < (b:ℚ) := by exact_mod_cast hb
  rcases eq_or_lt_of_le ha with h0 | hpos
  · rw [roundQF, if_pos h0.symm]
    omega
  rw [roundQF, if_neg (by omega : ¬ a = 0), if_neg (by omega : ¬ a < 0), mantRNE,
    Int.natAbs_of_nonneg ha, one_mul]
  have hs_ge : -(w:ℤ) ≤ scaleExp p w a b := le_max_right _ _
  set s := scaleExp p w a b with hsdef
  have hnpP : (0:ℤ) < ((npow2 s.toNat : ℕ) : ℤ) := by exact_mod_cast npow2_pos s.toNat
  have hbZ : (0:ℤ) < (b:ℤ) := by exact_mod_cast hb
  have hBpos : (0:ℤ) < (b:ℤ) * ((npow2 s.toNat : ℕ) : ℤ) := mul_pos hbZ hnpP
  -- the two ℚ powers that scale the significand
  have hPpos : (0:ℚ) < (2:ℚ) ^ (s.toNat : ℕ) := by positivity
  have hMsplit : (2:ℚ) ^ ((-s).toNat : ℕ) = (2:ℚ) ^ (s.toNat : ℕ) * (2:ℚ) ^ (-s) := by
    have h := q_zpow_mul_neg s
    have h2 : (2:ℚ) ^ s ≠ 0 := by positivity
    field_simp [zpow_neg]
    calc (2:ℚ) ^ ((-s).toNat : ℕ) * (2:ℚ) ^ s
        = (2:ℚ) ^ s * (2:ℚ) ^ ((-s).toNat : ℕ) := by ring
      _ = (2:ℚ) ^ (s.toNat : ℕ) := h
  have hswQ : (2:ℚ) ^ ((s + w).toNat : ℕ) = (2:ℚ) ^ (s + (w:ℤ)) := by
    rw [← zpow_natCast (2:ℚ) (s + w).toNat, Int.toNat_of_nonneg (by omega)]
  -- case split on which side of the clamp the scale came from
  rcases max_choice (eExp a.natAbs b - ((p : ℤ) - 1)) (-(w : ℤ)) with hmx | hmx
  · -- scale from the significand width: the guard forces 2 ^ (s + w) < K
    have hna1 : 1 ≤ a.natAbs := by omega
    have he := eExp_le a.natAbs b hna1 hb
    have heQ : (2:ℚ) ^ eExp a.natAbs b ≤ (a:ℚ) / (b:ℚ) := by
      have hcast : ((a.natAbs : ℕ) : ℚ) = (a:ℚ) := by
        rw [Int.cast_natAbs, abs_of_nonneg ha]
      rw [hcast] at he
      exact he
    have hKbig : (2:ℚ) ^ (eExp a.natAbs b + 1 + (w:ℤ)) ≤ (K:ℚ) := by
      have hsplit : (2:ℚ) ^ (eExp a.natAbs b + 1 + (w:ℤ))
          = (2:ℚ) ^ eExp a.natAbs b * (2 * (2:ℚ) ^ (w:ℤ)) := by
        rw [zpow_add₀ (by norm_num : (2:ℚ) ≠ 0),
          zpow_add₀ (by norm_num : (2:ℚ) ≠ 0), zpow_one]
        ring
      rw [hsplit]
      have h1 : (2:ℚ) ^ eExp a.natAbs b * (2 * (2:ℚ) ^ (w:ℤ))
          ≤ ((a:ℚ) / (b:ℚ)) * (2 * (2:ℚ) ^ (w:ℤ)) := by
        apply mul_le_mul_of_nonneg_right heQ
        positivity
      have h2 : ((a:ℚ) / (b:ℚ)) * (2 * (2:ℚ) ^ (w:ℤ)) ≤ (K:ℚ) := by
        rw [div_mul_eq_mul_div, div_le_iff hb0]
        calc (a:ℚ) * (2 * (2:ℚ) ^ (w:ℤ)) = 2 * (a:ℚ) * (2:ℚ) ^ (w:ℤ) := by ring
          _ ≤ (K:ℚ) * (b:ℚ) := hx
      exact le_trans h1 h2
    have hse : s = eExp a.natAbs b - ((p:ℤ) - 1) := by
      rw [hsdef, scaleExp]
      exact hmx
    have hlt : (2:ℚ) ^ (s + (w:ℤ)) < (K:ℚ) := by
      calc (2:ℚ) ^ (s + (w:ℤ)) ≤ (2:ℚ) ^ (eExp a.natAbs b + (w:ℤ)) := by
            apply zpow_le_zpow_right₀ (by norm_num : (1:ℚ) ≤ 2)
            omega
        _ < (2:ℚ) ^ (eExp a.natAbs b + 1 + (w:ℤ)) := by
            apply (zpow_lt_zpow_iff_right₀ (by norm_num : (1:ℚ) < 2)).mpr
            omega
        _ ≤ (K:ℚ) := hKbig
    -- main chain
    have hn := rneInt_le ((a : ℤ) * ((npow2 (-s).toNat : ℕ) : ℤ))
      ((b:ℤ) * ((npow2 s.toNat : ℕ) : ℤ)) hBpos
    set n := rneInt ((a : ℤ) * ((npow2 (-s).toNat : ℕ) : ℤ))
      ((b:ℤ) * ((npow2 s.toNat : ℕ) : ℤ)) with hndef
    have hnQ : 2 * ((b:ℚ) * (2:ℚ) ^ (s.toNat : ℕ)) * ((n:ℤ):ℚ)
        ≤ 2 * ((a:ℚ) * (2:ℚ) ^ ((-s).toNat : ℕ)) + (b:ℚ) * (2:ℚ) ^ (s.toNat : ℕ) := by
      simp only [npow2_eq] at hn
      exact_mod_cast hn
    have hgoalQ : ((n:ℤ):ℚ) * (2:ℚ) ^ (s + (w:ℤ)) < (K:ℚ) := by
      have hswpos : (0:ℚ) < (2:ℚ) ^ (s + (w:ℤ)) := by positivity
      apply lt_of_mul_lt_mul_left (a := 2 * (b:ℚ) * (2:ℚ) ^ (s.toNat : ℕ)) _
        (by positivity)
      calc 2 * (b:ℚ) * (2:ℚ) ^ (s.toNat : ℕ) * (((n:ℤ):ℚ) * (2:ℚ) ^ (s + (w:ℤ)))
          = (2 * ((b:ℚ) * (2:ℚ) ^ (s.toNat : ℕ)) * ((n:ℤ):ℚ)) * (2:ℚ) ^ (s + (w:ℤ)) := by
            ring
        _ ≤ (2 * ((a:ℚ) * (2:ℚ) ^ ((-s).toNat : ℕ)) + (b:ℚ) * (2:ℚ) ^ (s.toNat : ℕ))
              * (2:ℚ) ^ (s + (w:ℤ)) := by
            apply mul_le_mul_of_nonneg_right hnQ hswpos.le
        _ = 2 * (a:ℚ) * (2:ℚ) ^ (w:ℤ) * (2:ℚ) ^ (s.toNat : ℕ)
              + (b:ℚ) * (2:ℚ) ^ (s.toNat : ℕ) * (2:ℚ) ^ (s + (w:ℤ)) := by
            rw [hMsplit]
            have hfold : (2:ℚ) ^ (-s) * (2:ℚ) ^ (s + (w:ℤ)) = (2:ℚ) ^ (w:ℤ) := by
              rw [← zpow_add₀ (by norm_num : (2:ℚ) ≠ 0)]
              congr 1
              ring
            calc (2 * ((a:ℚ) * ((2:ℚ) ^ (s.toNat : ℕ) * (2:ℚ) ^ (-s)))
                    + (b:ℚ) * (2:ℚ) ^ (s.toNat : ℕ)) * (2:ℚ) ^ (s + (w:ℤ))
                = 2 * (a:ℚ) * ((2:ℚ) ^ (-s) * (2:ℚ) ^ (s + (w:ℤ))) * (2:ℚ) ^ (s.toNat : ℕ)
                  + (b:ℚ) * (2:ℚ) ^ (s.toNat : ℕ) * (2:ℚ) ^ (s + (w:ℤ)) := by ring
              _ = _ := by rw [hfold]
        _ < (K:ℚ) * (b:ℚ) * (2:ℚ) ^ (s.toNat : ℕ)
              + (b:ℚ) * (2:ℚ) ^ (s.toNat : ℕ) * (K:ℚ) := by
            apply add_lt_add_of_le_of_lt
            · apply mul_le_mul_of_nonneg_right hx hPpos.le
            · apply mul_lt_mul_of_pos_left hlt
              positivity
        _ = 2 * (b:ℚ) * (2:ℚ) ^ (s.toNat : ℕ) * (K:ℚ) := by ring
    have : ((n * ((npow2 (s + w).toNat : ℕ) : ℤ) : ℤ) : ℚ) < ((K:ℤ):ℚ) := by
      push_cast [npow2_eq]
      rw [← zpow_natCast (2:ℚ) (s + w).toNat, Int.toNat_of_nonneg (by omega)]
      exact hgoalQ
    exact_mod_cast this
  · -- scale clamped at the subnormal floor
    by_cases hK1 : K = 1
    · -- the guard makes the significand round to zero
      subst hK1
      have hzero : rneInt ((a : ℤ) * ((npow2 (-s).toNat : ℕ) : ℤ))
          ((b:ℤ) * ((npow2 s.toNat : ℕ) : ℤ)) = 0 := by
        apply rneInt_eq_zero _ _ hBpos (by positivity)
        have hsv : s = -(w:ℤ) := by
          rw [hsdef, scaleExp]
          exact hmx
        have h1 : (-s).toNat = w := by omega
        have h2 : s.toNat = 0 := by omega
        rw [h1, h2]
        have hxZ : 2 * a * ((npow2 w : ℕ) : ℤ) ≤ (b:ℤ) := by
          have hpw : ((npow2 w : ℕ) : ℚ) = (2:ℚ) ^ (w:ℤ) := by
            rw [npow2_eq]
            push_cast
            rw [← zpow_natCast (2:ℚ) w]
          have : 2 * (a:ℚ) * ((npow2 w : ℕ) : ℚ) ≤ ((b:ℤ):ℚ) := by
            rw [hpw]
            simpa using hx
          exact_mod_cast this
        calc 2 * ((a:ℤ) * ((npow2 w : ℕ) : ℤ)) = 2 * a * ((npow2 w : ℕ) : ℤ) := by ring
          _ ≤ (b:ℤ) := hxZ
          _ = (b:ℤ) * ((npow2 0 : ℕ) : ℤ) := by norm_num [npow2, pow2go]
      rw [hzero, zero_mul]
      omega
    · -- K ≥ 2 and the grid step is one unit
      have hK2 : 2 ≤ K := by omega
      have hsv : s = -(w:ℤ) := by
        rw [hsdef, scaleExp]
        exact hmx
      have hlt : (2:ℚ) ^ (s + (w:ℤ)) < (K:ℚ) := by
        rw [hsv]
        norm_num
        exact_mod_cast hK2
      have hn := rneInt_le ((a : ℤ) * ((npow2 (-s).toNat : ℕ) : ℤ))
        ((b:ℤ) * ((npow2 s.toNat : ℕ) : ℤ)) hBpos
      set n := rneInt ((a : ℤ) * ((npow2 (-s).toNat : ℕ) : ℤ))
        ((b:ℤ) * ((npow2 s.toNat : ℕ) : ℤ)) with hndef
      have hnQ : 2 * ((b:ℚ) * (2:ℚ) ^ (s.toNat : ℕ)) * ((n:ℤ):ℚ)
          ≤ 2 * ((a:ℚ) * (2:ℚ) ^ ((-s).toNat : ℕ)) + (b:ℚ) * (2:ℚ) ^ (s.toNat : ℕ) := by
        simp only [npow2_eq] at hn
        exact_mod_cast hn
      have hgoalQ : ((n:ℤ):ℚ) * (2:ℚ) ^ (s + (w:ℤ)) < (K:ℚ) := by
        have hswpos : (0:ℚ) < (2:ℚ) ^ (s + (w:ℤ)) := by positivity
        apply lt_of_mul_lt_mul_left (a := 2 * (b:ℚ) * (2:ℚ) ^ (s.toNat : ℕ)) _
          (by positivity)
        calc 2 * (b:ℚ) * (2:ℚ) ^ (s.toNat : ℕ) * (((n:ℤ):ℚ) * (2:ℚ) ^ (s + (w:ℤ)))
            = (2 * ((b:ℚ) * (2:ℚ) ^ (s.toNat : ℕ)) * ((n:ℤ):ℚ)) * (2:ℚ) ^ (s + (w:ℤ)) := by
              ring
          _ ≤ (2 * ((a:ℚ) * (2:ℚ) ^ ((-s).toNat : ℕ)) + (b:ℚ) * (2:ℚ) ^ (s.toNat : ℕ))
                * (2:ℚ) ^ (s + (w:ℤ)) := by
              apply mul_le_mul_of_nonneg_right hnQ hswpos.le
          _ = 2 * (a:ℚ) * (2:ℚ) ^ (w:ℤ) * (2:ℚ) ^ (s.toNat : ℕ)
                + (b:ℚ) * (2:ℚ) ^ (s.toNat : ℕ) * (2:ℚ) ^ (s + (w:ℤ)) := by
              rw [hMsplit]
              have hfold : (2:ℚ) ^ (-s) * (2:ℚ) ^ (s + (w:ℤ)) = (2:ℚ) ^ (w:ℤ) := by
                rw [← zpow_add₀ (by norm_num : (2:ℚ) ≠ 0)]
                congr 1
                ring
              calc (2 * ((a:ℚ) * ((2:ℚ) ^ (s.toNat : ℕ) * (2:ℚ) ^ (-s)))
                      + (b:ℚ) * (2:ℚ) ^ (s.toNat : ℕ)) * (2:ℚ) ^ (s + (w:ℤ))
                  = 2 * (a:ℚ) * ((2:ℚ) ^ (-s) * (2:ℚ) ^ (s + (w:ℤ))) * (2:ℚ) ^ (s.toNat : ℕ)
                    + (b:ℚ) * (2:ℚ) ^ (s.toNat : ℕ) * (2:ℚ) ^ (s + (w:ℤ)) := by ring
                _ = _ := by rw [hfold]
          _ < (K:ℚ) * (b:ℚ) * (2:ℚ) ^ (s.toNat : ℕ)
                + (b:ℚ) * (2:ℚ) ^ (s.toNat : ℕ) * (K:ℚ) := by
              apply add_lt_add_of_le_of_lt
              · apply mul_le_mul_of_nonneg_right hx hPpos.le
              · apply mul_lt_mul_of_pos_left hlt
                positivity
          _ = 2 * (b:ℚ) * (2:ℚ) ^ (s.toNat : ℕ) * (K:ℚ) := by ring
      have : ((n * ((npow2 (s + w).toNat : ℕ) : ℤ) : ℤ) : ℚ) < ((K:ℤ):ℚ) := by
        push_cast [npow2_eq]
        rw [← zpow_natCast (2:ℚ) (s + w).toNat, Int.toNat_of_nonneg (by omega)]
        exact hgoalQ
      exact_mod_cast this

theorem fdiv_neg_arg (p w : ℕ) (k d : ℤ) : fdiv p w (-k) d = - fdiv p w k d := by
  rw [fdiv, fdiv]
  by_cases hd0 : d = 0
  · simp [hd0]
  · rw [if_neg hd0, if_neg hd0]
    by_cases hdlt : d < 0
    · rw [if_pos hdlt, if_pos hdlt, neg_neg, roundQF_neg]
      ring
    · rw [if_neg hdlt, if_neg hdlt, roundQF_neg]

theorem fdiv_decreasing (p w : ℕ) (eps d : ℤ) (hp : 1 ≤ p)
    (hd : ((npow2 (w + 1) : ℕ) : ℤ) ≤ d) (heps : 1 ≤ eps) :
    0 ≤ fdiv p w eps d ∧ fdiv p w eps d < eps := by
  have hdpos : 0 < d := lt_of_lt_of_le (by exact_mod_cast npow2_pos (w + 1)) hd
  have hdabs : 1 ≤ d.natAbs := by omega
  rw [fdiv, if_neg (by omega : ¬ d = 0), if_neg (by omega : ¬ d < 0)]
  constructor
  · exact roundQF_nonneg p w eps d.natAbs hdabs (by omega)
  · apply roundQF_lt p w eps d.natAbs eps hp hdabs (by omega) heps
    have hdQ : 2 * (2:ℚ) ^ (w:ℤ) ≤ ((d.natAbs : ℕ) : ℚ) := by
      have h1 : ((npow2 (w + 1) : ℕ) : ℤ) ≤ (d.natAbs : ℤ) := by omega
      have h2 : ((npow2 (w + 1) : ℕ) : ℚ) ≤ ((d.natAbs : ℕ) : ℚ) := by
        exact_mod_cast h1
      calc 2 * (2:ℚ) ^ (w:ℤ) = ((npow2 (w + 1) : ℕ) : ℚ) := by
            rw [npow2_eq]
            push_cast
            rw [zpow_natCast]
            ring
        _ ≤ ((d.natAbs : ℕ) : ℚ) := h2
    have hepsQ : (0:ℚ) ≤ (eps:ℚ) := by exact_mod_cast le_trans (by norm_num) heps
    calc 2 * (eps:ℚ) * (2:ℚ) ^ (w:ℤ) = (eps:ℚ) * (2 * (2:ℚ) ^ (w:ℤ)) := by ring
      _ ≤ (eps:ℚ) * ((d.natAbs : ℕ) : ℚ) := by
          exact mul_le_mul_of_nonneg_left hdQ hepsQ
      _ = (eps:ℚ) * ((d.natAbs : ℕ) : ℚ) := rfl

theorem fdiv_natAbs_lt (p w : ℕ) (eps d : ℤ) (hp : 1 ≤ p)
    (hd : ((npow2 (w + 1) : ℕ) : ℤ) ≤ d) (heps : eps ≠ 0) :
    (fdiv p w eps d).natAbs < eps.natAbs := by
  rcases lt_or_gt_of_ne heps with hneg | hpos
  · obtain ⟨h0, hlt⟩ := fdiv_decreasing p w (-eps) d hp hd (by omega)
    have heq : fdiv p w eps d = - fdiv p w (-eps) d := by
      rw [← fdiv_neg_arg, neg_neg]
    omega
  · obtain ⟨h0, hlt⟩ := fdiv_decreasing p w eps d hp hd (by omega)
    omega

theorem fadd_zero_right (p w : ℕ) (v : ℤ) (hv : isRepF p w v) : fadd p w v 0 = v := by
  rw [fadd, add_zero]
  exact hv

theorem accuracy_bound_total (p w : ℕ) (v d : ℤ) (hp : 1 ≤ p) (hv : isRepF p w v)
    (hd : ((npow2 (w + 1) : ℕ) : ℤ) ≤ d) :
    ∀ n (g : ℤ), g.natAbs ≤ n → (accuracy_bound p w (n + 1) v d g).isSome = true := by
  intro n
  induction n with
  | zero =>
    intro g hg
    have hg0 : g = 0 := by omega
    subst hg0
    rw [accuracy_bound, if_neg (by rw [fadd_zero_right p w v hv]; omega)]
    rfl
  | succ n ih =>
    intro g hg
    rw [accuracy_bound]
    by_cases hc : fadd p w v g ≠ v
    · rw [if_pos hc]
      apply ih
      have hgne : g ≠ 0 := by
        intro h0
        subst h0
        exact hc (fadd_zero_right p w v hv)
      have := fdiv_natAbs_lt p w g d hp hd hgne
      omega
    · rw [if_neg hc]
      rfl

theorem diverges_of_fixpoint (p w : ℕ) (v d g : ℤ)
    (hfix : fdiv p w g d = g) (hsig : fadd p w v g ≠ v) :
    Diverges p w v d g := by
  intro fuel
  induction fuel with
  | zero => rfl
  | succ fuel ih =>
    rw [accuracy_bound, if_pos hsig, hfix]
    exact ih

/-- Claim C2 (amended): for every format with `p ≥ 1`, every
representable value, and every initial guess, if the divisor is at
least 2 then the while loop of `accuracy_bound` terminates.  (The
claim's `divisor > 1` is not sufficient: see the counterexample.) -/
theorem c2_amended (p w : ℕ) (v d g : ℤ) (hp : 1 ≤ p) (hv : isRepF p w v)
    (hd : ((npow2 (w + 1) : ℕ) : ℤ) ≤ d) :
    Terminates p w v d g :=
  ⟨g.natAbs + 1, accuracy_bound_total p w v d hp hv hd g.natAbs g le_rfl⟩

/-- Witness for C2 (amended) at single precision: value 0, divisor 2,
guess 1 terminates. -/
theorem c2_amended_witness : Terminates 24 149 0 (pw2 150) (pw2 149) :=
  c2_amended 24 149 0 (pw2 150) (pw2 149) (by norm_num) (by decide) (by decide)

/-- Counterexample to claim C2 as stated: at single precision, with
value 0, divisor 1.5 (coefficient `3 * 2^148`, a representable value
greater than 1), and initial guess `2^-149` (the smallest positive
subnormal), the loop never terminates: `2^-149 / 1.5` rounds back to
`2^-149`, and `0 + 2^-149 != 0` keeps the loop running forever. -/
theorem c2_counterexample :
    pw2 149 < 3 * pw2 148 ∧
    isRepF 24 149 0 ∧ isRepF 24 149 (3 * pw2 148) ∧ isRepF 24 149 1 ∧
    Diverges 24 149 0 (3 * pw2 148) 1 := by
  refine ⟨by decide, by decide, by decide, by decide, ?_⟩
  exact diverges_of_fixpoint 24 149 0 (3 * pw2 148) 1 (by decide) (by decide)

/-- Claim C3 (amended): for every terminating `accuracy_bound` call,
the returned value equals `eps * divisor` computed in the format's
arithmetic, where `eps` is the first insignificant guess (the guess at
loop exit, which satisfies `value + eps == value`).  The claim's
stronger assertion that the product exactly restores the guess of one
iteration earlier fails in general (see the counterexample). -/
theorem c3_amended (p w fuel : ℕ) (v d g r : ℤ)
    (h : accuracy_bound p w fuel v d g = some r) :
    ∃ eps, fadd p w v eps = v ∧ r = fmul p w eps d := by
  induction fuel generalizing g with
  | zero => simp [accuracy_bound] at h
  | succ fuel ih =>
    rw [accuracy_bound] at h
    by_cases hc : fadd p w v g ≠ v
    · rw [if_pos hc] at h
      exact ih (fdiv p w g d) h
    · rw [if_neg hc] at h
      push_neg at hc
      exact ⟨g, hc, (Option.some_injective _ h).symm⟩

/-- Witness for C3 (amended) at single precision: value `2^-123`,
divisor 2, guess `5 * 2^-149` returns `eps * divisor` for an
insignificant `eps`. -/
theorem c3_amended_witness :
    ∃ eps, fadd 24 149 (pw2 26) eps = pw2 26 ∧
      (4 : ℤ) = fmul 24 149 eps (pw2 150) :=
  c3_amended 24 149 10 (pw2 26) (pw2 150) 5 4 (by decide)

/-- Counterexample to claim C3 as stated: at single precision, with
value `2^23`, divisor 3, and initial guess `prev = 12582917 * 2^-24`
(all representable), `prev` is significant, `prev / 3` is not, so the
loop exits after one iteration; the returned value
`(prev / 3) * 3 = 12582916 * 2^-24` differs from `prev`, the guess held
one iteration before the exit: the divide-multiply round trip does not
restore it. -/
theorem c3_counterexample :
    isRepF 24 149 (pw2 172) ∧ isRepF 24 149 (3 * pw2 149) ∧
    isRepF 24 149 (12582917 * pw2 125) ∧
    fadd 24 149 (pw2 172) (12582917 * pw2 125) ≠ pw2 172 ∧
    fadd 24 149 (pw2 172) (fdiv 24 149 (12582917 * pw2 125) (3 * pw2 149)) = pw2 172 ∧
    accuracy_bound 24 149 10 (pw2 172) (3 * pw2 149) (12582917 * pw2 125)
      = some (3145729 * pw2 127) ∧
    (3145729 * pw2 127 : ℤ) ≠ 12582917 * pw2 125 := by
  decide

/-- Claim C4 (confirmed): whenever `accuracy_vector` returns a
result, its `i`-th element is `accuracy_bound value divisors[i] g_i`,
where `g_0` is the initial guess and `g_i` for `i > 0` is element
`i - 1` of the result: each stage's bound seeds the next stage's
guess. -/
theorem c4 (p w fuel : ℕ) (v : ℤ) :
    ∀ (ds : List ℤ) (g : ℤ) (out : List ℤ),
      accuracy_vector p w fuel v ds g = some out →
      ∀ i, i < ds.length →
        accuracy_bound p w fuel v (ds.getD i 0) ((g :: out).getD i 0)
          = some (out.getD i 0) := by
  intro ds
  induction ds with
  | nil =>
    intro g out h i hi
    simp at hi
  | cons d ds ih =>
    intro g out h i hi
    rw [accuracy_vector] at h
    split at h
    · exact absurd h (by simp)
    next b hb =>
      split at h
      · exact absurd h (by simp)
      next rest hrest =>
        simp only [Option.some.injEq] at h
        subst h
        cases i with
        | zero => simpa using hb
        | succ i =>
          simp only [List.getD_cons_succ]
          exact ih b rest hrest i (by simpa using hi)

/-- A small concrete `accuracy_vector` run used by the C4 and C5
witnesses: one divisor 2, value 1, guess 1 at single precision. -/
theorem av_single_one : accuracy_vector 24 149 200 (pw2 149) [pw2 150] (pw2 149)
    = some [pw2 126] := by
  decide

/-- Witness for C4: the first stage of the concrete run
`av_single_one` is the corresponding `accuracy_bound` call. -/
theorem c4_witness :
    accuracy_bound 24 149 200 (pw2 149) (pw2 150) (pw2 149) = some (pw2 126) :=
  c4 24 149 200 (pw2 149) [pw2 150] (pw2 149) [pw2 126] av_single_one 0 (by norm_num)

/-- Claim C5 (confirmed): whenever `accuracy_vector` returns a
result, the result has the same length as the divisor list, and the
empty divisor list yields the empty result even with zero fuel — no
`accuracy_bound` call is made (any call would consume fuel). -/
theorem c5 (p w fuel : ℕ) (v : ℤ) :
    ∀ (ds : List ℤ) (g : ℤ) (out : List ℤ),
      accuracy_vector p w fuel v ds g = some out →
      out.length = ds.length ∧ accuracy_vector p w 0 v [] g = some [] := by
  intro ds
  induction ds with
  | nil =>
    intro g out h
    simp [accuracy_vector] at h
    subst h
    exact ⟨rfl, rfl⟩
  | cons d ds ih =>
    intro g out h
    rw [accuracy_vector] at h
    split at h
    · exact absurd h (by simp)
    next b hb =>
      split at h
      · exact absurd h (by simp)
      next rest hrest =>
        simp only [Option.some.injEq] at h
        subst h
        obtain ⟨hlen, _⟩ := ih b rest hrest
        exact ⟨by simp [hlen], rfl⟩

/-- Witness for C5 on the concrete run `av_single_one`. -/
theorem c5_witness :
    ([pw2 126] : List ℤ).length = ([pw2 150] : List ℤ).length ∧
    accuracy_vector 24 149 0 (pw2 149) [] (pw2 149) = some [] :=
  c5 24 149 200 (pw2 149) [pw2 150] (pw2 149) [pw2 126] av_single_one

/-- Claim C9 (amended): if `value + initial_guess == value` already
holds at entry, `accuracy_bound` performs zero loop iterations (one
unit of fuel suffices) and returns `initial_guess * divisor` computed
in the format's arithmetic.  The claim's assertion that this product is
larger than the initial guess fails for guess 0 (see the
counterexample). -/
theorem c9_amended (p w fuel : ℕ) (v d g : ℤ) (h : fadd p w v g = v) :
    accuracy_bound p w (fuel + 1) v d g = some (fmul p w g d) := by
  rw [accuracy_bound, if_neg (not_not_intro h)]

/-- Witness for C9 (amended) at single precision: value 1, guess
`2^-149` (absorbed at entry), divisor `3 * 2^-149`. -/
theorem c9_amended_witness :
    accuracy_bound 24 149 1 (pw2 149) 3 1 = some (fmul 24 149 1 3) :=
  c9_amended 24 149 0 (pw2 149) 3 1 (by decide)

/-- Counterexample to claim C9 as stated: at single precision with
value 0, divisor 2, and initial guess 0, the entry test is already
false, the function returns `0 * divisor = 0`, and the result is not
larger than the initial guess. -/
theorem c9_counterexample :
    isRepF 24 149 0 ∧ isRepF 24 149 (pw2 150) ∧
    fadd 24 149 0 0 = 0 ∧
    accuracy_bound 24 149 5 0 (pw2 150) 0 = some (fmul 24 149 0 (pw2 150)) ∧
    ¬ (0 : ℤ) < fmul 24 149 0 (pw2 150) := by
  decide

/-- Claim C10 (confirmed): `accuracy_bound` and `accuracy_vector`
are deterministic — two calls with equal arguments return equal
results.  Both are pure functions of their arguments in this embedding,
mirroring the source functions, which touch only their parameters and
locals and take the divisor vector by const reference. -/
theorem c10 (p w fuel : ℕ) (v d g v' d' g' : ℤ) (ds ds' : List ℤ)
    (h1 : v = v') (h2 : d = d') (h3 : g = g') (h4 : ds = ds') :
    accuracy_bound p w fuel v d g = accuracy_bound p w fuel v' d' g' ∧
    accuracy_vector p w fuel v ds g = accuracy_vector p w fuel v' ds' g' := by
  subst h1
  subst h2
  subst h3
  subst h4
  exact ⟨rfl, rfl⟩

/-- Witness for C10 at concrete arguments. -/
theorem c10_witness :
    accuracy_bound 24 149 5 0 3 1 = accuracy_bound 24 149 5 0 3 1 ∧
    accuracy_vector 24 149 5 0 [3] 1 = accuracy_vector 24 149 5 0 [3] 1 :=
  c10 24 149 5 0 3 1 0 3 1 [3] [3] rfl rfl rfl rfl

theorem val_lt_val (w1 w2 : ℕ) (a b : ℤ) (hw : w1 ≤ w2)
    (h : b < a * ((npow2 (w2 - w1) : ℕ) : ℤ)) : val w2 b < val w1 a := by
  rw [val, val, div_lt_div_iff (by positivity) (by positivity)]
  have hQ : (b:ℚ) < (a:ℚ) * (2:ℚ) ^ ((w2 - w1 : ℕ)) := by
    have := h
    rw [npow2_eq] at this
    exact_mod_cast this
  calc (b:ℚ) * 2 ^ w1 < ((a:ℚ) * (2:ℚ) ^ ((w2 - w1 : ℕ))) * 2 ^ w1 := by
        apply mul_lt_mul_of_pos_right hQ
        positivity
    _ = (a:ℚ) * 2 ^ w2 := by
        rw [mul_assoc, ← pow_add]
        congr 2
        omega

/-- Claim C6 (confirmed): for the driver's divisor sequence, reference
value 1 and initial guess 1, the final bound of the narrower format is
numerically strictly larger than that of the wider one: the `float`
bound `8388673 * 2^-47` exceeds the `double` bound
`4503634533001963 * 2^-105`, which exceeds the `long double` bound
`9223443523588014633 * 2^-127`. -/
theorem c6 :
    last_bound single_vector = some (8388673 * pw2 102) ∧
    last_bound double_vector = some (4503634533001963 * pw2 969) ∧
    last_bound extended_vector = some (9223443523588014633 * pw2 16318) ∧
    val 1074 (4503634533001963 * pw2 969) < val 149 (8388673 * pw2 102) ∧
    val 16445 (9223443523588014633 * pw2 16318) < val 1074 (4503634533001963 * pw2 969) := by
  refine ⟨?_, ?_, ?_, ?_, ?_⟩
  · rw [last_bound, single_vector_eq]
    rfl
  · rw [last_bound, double_vector_eq]
    rfl
  · rw [last_bound, extended_vector_eq]
    rfl
  · exact val_lt_val 149 1074 (8388673 * pw2 102) (4503634533001963 * pw2 969)
      (by norm_num) (by decide)
  · exact val_lt_val 1074 16445 (4503634533001963 * pw2 969)
      (9223443523588014633 * pw2 16318) (by norm_num) (by decide)

/-- Claim C7 (confirmed): the driver invokes `accuracy_vector` once
per floating-point width with reference value 1 and initial guess 1 in
that width, and reports the last element of each resulting sequence
alongside the theoretical value `2^-24`, `2^-53`, `2^-64` respectively;
each reported empirical value in fact differs from its theoretical
companion, and the program reports them regardless — nothing enforces a
match. -/
theorem c7 :
    single_vector = accuracy_vector 24 149 200 (pw2 149) single_divisors (pw2 149) ∧
    double_vector = accuracy_vector 53 1074 200 (pw2 1074) double_divisors (pw2 1074) ∧
    extended_vector = accuracy_vector 64 16445 200 (pw2 16445) extended_divisors (pw2 16445) ∧
    main_report = some [(8388673 * pw2 102, pw2 125),
      (4503634533001963 * pw2 969, pw2 1021),
      (9223443523588014633 * pw2 16318, pw2 16381)] ∧
    (8388673 * pw2 102 : ℤ) ≠ pw2 125 ∧
    (4503634533001963 * pw2 969 : ℤ) ≠ pw2 1021 ∧
    (9223443523588014633 * pw2 16318 : ℤ) ≠ pw2 16381 := by
  refine ⟨rfl, rfl, rfl, ?_, by decide, by decide, by decide⟩
  have h1 : last_bound single_vector = some (8388673 * pw2 102) := by
    rw [last_bound, single_vector_eq]
    rfl
  have h2 : last_bound double_vector = some (4503634533001963 * pw2 969) := by
    rw [last_bound, double_vector_eq]
    rfl
  have h3 : last_bound extended_vector = some (9223443523588014633 * pw2 16318) := by
    rw [last_bound, extended_vector_eq]
    rfl
  unfold main_report
  rw [h1, h2, h3]

/-- Claim C8 (confirmed): the three divisor lists are element-wise
numerically equal.  `single_divisors` holds the `float` roundings of
the literals `{2.0, 1.1, 1.01, 1.001, 1.0001, 1.00001}`, and the
`double` and `long double` lists are exact widenings: on the coefficient
grids, widening multiplies by `2^(1074-149)` and `2^(16445-149)`. -/
theorem c8 :
    single_divisors = [2^150, 9227469 * 2^126, 4236247 * 2^127,
      8396997 * 2^126, 8389447 * 2^126, 2097173 * 2^128] ∧
    double_divisors = single_divisors.map (fun k => k * pw2 925) ∧
    extended_divisors = single_divisors.map (fun k => k * pw2 16296) := by
  refine ⟨single_divisors_eq, ?_, ?_⟩
  · decide
  · decide
